import Mathlib

/-!
Shallow embedding of the Gaphor model code generator
(`gaphor/codegen/coder.py`) and proofs about its ordering,
emission, override and normalization behaviour.

Model elements are identified by numeric ids; every id dereference is
total (mirroring Python object references, which always point at real
objects in a loaded model).  Optional string attributes mirror Python
attributes that may be `None`; Python truthiness (`None` and the empty
string are falsy) is modelled explicitly.  Recursive traversals that,
in Python, are bounded only by the interpreter recursion limit are
modelled with an explicit fuel parameter; exhausted fuel corresponds to
the interpreter aborting with a recursion error.
-/

namespace Coder

abbrev Id := Nat

/-- An element of a UML property (`UML.Property`).  The field `upper` mirrors
the derived runtime attribute `Property.upper` (defined outside these
sources); in loaded models it reflects the literal `upperValue`.
`stereotypeSlots` flattens `appliedStereotype[:].slot` into
(definingFeature name, value) pairs, and `ownerId` is the owning class. -/
structure PropertyD where
  name : Option String := none
  typeValue : Option String := none
  ptype : Option Id := none
  isDerived : Bool := false
  lowerValue : Option String := none
  upperValue : Option String := none
  upper : Option String := none
  aggregation : Option String := none
  defaultValue : Option String := none
  association : Option Id := none
  opposite : Option Id := none
  class_ : Option Id := none
  ownerId : Id := 0
  stereotypeSlots : List (String × String) := []

/-- A UML class: name, owned attribute/operation ids in stored order,
generalization targets (the `g.general` ids), applied stereotype names
(for the SimpleAttribute test) and the owning package. -/
structure ClassD where
  name : Option String := none
  ownedAttribute : List Id := []
  ownedOperation : List Id := []
  generalization : List Id := []
  appliedStereotypes : List String := []
  owningPackage : Option Id := none

/-- A UML operation (only its name is consulted). -/
structure OperationD where
  name : Option String := none

/-- An association: whether it is a `UML.Extension` and its owned end. -/
structure AssociationD where
  isExtension : Bool := false
  ownedEnd : Option Id := none

/-- A package in the ownership chain; `isProfile` marks `UML.Profile`. -/
structure PackageD where
  isProfile : Bool := false
  owningPackage : Option Id := none

/-- The element factory: iteration orders (insertion order of the store)
plus total dereference functions for every element kind.  `tag`
distinguishes distinct factories, modelling Python object identity for
the `c is not super_class` test. -/
structure Model where
  tag : Nat := 0
  classIds : List Id := []
  propIds : List Id := []
  classOf : Id → ClassD := fun _ => {}
  propOf : Id → PropertyD := fun _ => {}
  opOf : Id → OperationD := fun _ => {}
  assocOf : Id → AssociationD := fun _ => {}
  packOf : Id → PackageD := fun _ => {}

/-- Python truthiness of an optional string (`None` and `""` are falsy). -/
def truthy : Option String → Bool
  | none => false
  | some s => !(s == "")

/-- Python f-string rendering of an optional value (`None` prints as such). -/
def pyStr : Option String → String
  | none => "None"
  | some s => s

/-- The bases of a class: generalization targets, then classes reached via
an attribute named baseClass through its association owned end
(`coder.bases`).  A dangling owned end, which would crash Python with an
attribute error, contributes nothing here. -/
def bases (m : Model) (c : ClassD) : List Id :=
  c.generalization ++
    c.ownedAttribute.filterMap (fun aid =>
      let a := m.propOf aid
      if a.association.isSome && (a.name == some ("baseClass")) then
        (a.association.bind (fun sid => (m.assocOf sid).ownedEnd)).bind
          (fun eid => (m.propOf eid).class_)
      else none)

/-- Bases of the class with the given id. -/
def basesOf (m : Model) (c : Id) : List Id :=
  bases m (m.classOf c)

/-- One recursion layer of `coder.order_classes`: process a worklist of
classes against a visited list, where `rec` orders the bases one
recursion level deeper.  A class is appended to the output after its
bases and only then marked seen, exactly as in the Python generator. -/
def orderAux (m : Model) (rec : List Id → List Id → Option (List Id × List Id)) :
    List Id → List Id → Option (List Id × List Id)
  | [], seen => some ([], seen)
  | c :: cs, seen =>
    if c ∈ seen then
      orderAux m rec cs seen
    else
      match rec (basesOf m c) seen with
      | none => none
      | some (o1, s1) =>
        match orderAux m rec cs (c :: s1) with
        | none => none
        | some (o2, s2) => some (o1 ++ c :: o2, s2)

/-- The depth-first postorder of `coder.order_classes`, with `fuel` bounding
the recursion depth (the Python recursion limit); `none` means the
traversal needed more depth than allowed. -/
def orderMany (m : Model) : Nat → List Id → List Id → Option (List Id × List Id)
  | 0 => fun _ _ => none
  | fuel + 1 => orderAux m (orderMany m fuel)

/-- The ordered class sequence of `order_classes` at a given depth bound. -/
def order_classes (m : Model) (fuel : Nat) (classes : List Id) : Option (List Id) :=
  (orderMany m fuel classes []).map Prod.fst

/-- Direct reachability step along `bases`: `y` is a direct base of `x`. -/
def BaseStep (m : Model) (x y : Id) : Prop :=
  y ∈ basesOf m x

/-- Reflexive-transitive reachability along `bases`. -/
def Reaches (m : Model) : Id → Id → Prop :=
  Relation.ReflTransGen (BaseStep m)

/-- Transitive (one step or more) base relation: `a` is a transitive base
of `b`. -/
def TransBase (m : Model) (a b : Id) : Prop :=
  Relation.TransGen (fun x y => x ∈ basesOf m y) a b

/-- Invariant: on success the final visited list is the reversed output on
top of the initial visited list. -/
def SeenInv (f : List Id → List Id → Option (List Id × List Id)) : Prop :=
  ∀ cs seen o s, f cs seen = some (o, s) → s = o.reverse ++ seen

/-- Invariant: on success every processed class ends up visited. -/
def SubInv (f : List Id → List Id → Option (List Id × List Id)) : Prop :=
  ∀ cs seen o s, f cs seen = some (o, s) → ∀ c ∈ cs, c ∈ s

/-- Invariant: every emitted class is reachable from the worklist. -/
def ReachInv (m : Model) (f : List Id → List Id → Option (List Id × List Id)) : Prop :=
  ∀ cs seen o s, f cs seen = some (o, s) → ∀ x ∈ o, ∃ r ∈ cs, Reaches m r x

/-- Invariant: the output has no duplicates and avoids the visited list. -/
def FreshInv (f : List Id → List Id → Option (List Id × List Id)) : Prop :=
  ∀ cs seen o s, f cs seen = some (o, s) → o.Nodup ∧ ∀ x ∈ o, x ∉ seen

/-- Invariant: every base of an emitted class was either already visited
on entry or appears earlier in the output. -/
def TopoInv (m : Model) (f : List Id → List Id → Option (List Id × List Id)) : Prop :=
  ∀ cs seen o s, f cs seen = some (o, s) →
    ∀ u x v, o = u ++ x :: v → ∀ b ∈ basesOf m x, b ∈ seen ∨ b ∈ u

/-- Python startswith over code points. -/
def strStartsWith (s p : String) : Bool := p.data.isPrefixOf s.data

/-- Python endswith over code points. -/
def strEndsWith (s p : String) : Bool := p.data.isSuffixOf s.data

/-- The whitespace stripped by Python str.strip. -/
def isPySpace (c : Char) : Bool :=
  c == ' ' || c == '\t' || c == '\n' || c == '\r' || c == '\x0b' || c == '\x0c'

/-- Python str.strip. -/
def strStrip (s : String) : String :=
  String.mk (((s.data.dropWhile isPySpace).reverse.dropWhile isPySpace).reverse)

/-- Python str.split on a single separator character ("".split gives one
empty field, like Python). -/
def splitOnChar (sep : Char) : List Char → List (List Char)
  | [] => [[]]
  | c :: cs =>
    let r := splitOnChar sep cs
    if c = sep then [] :: r
    else
      match r with
      | [] => [[c]]
      | h :: t => (c :: h) :: t

/-- Python str.split(",") on a string. -/
def strSplitComma (s : String) : List String := (splitOnChar ',' s.data).map String.mk

/-- Python str.join over a separator. -/
def joinSep (sep : String) : List String → String
  | [] => ""
  | [s] => s
  | s :: rest => s ++ sep ++ joinSep sep rest

/-- Python str.title as used for boolean-like default literals: the first
alphabetic character of every run is uppercased, the rest lowercased. -/
def pyTitleAux : Bool → List Char → List Char
  | _, [] => []
  | prevAlpha, ch :: rest =>
    (if ch.isAlpha && !prevAlpha then ch.toUpper
     else if ch.isAlpha then ch.toLower else ch) :: pyTitleAux ch.isAlpha rest

/-- Python str.title on a whole string. -/
def pyTitle (s : String) : String := String.mk (pyTitleAux false s.data)

/-- One override entry.  Modelled from the spec: the override resource maps
a qualified name to literal replacement text (and carries the declared
type used for the class-body annotation); `override.py` itself is not
among the sources. -/
structure OvEntry where
  otype : String
  text : String

/-- The override table.  Modelled from the spec: keyed by qualified member
or class name, plus the literal `header` entry. -/
structure Overrides where
  headerText : Option String := none
  table : List (String × OvEntry) := []

/-- has_override on a possibly absent override table. -/
def hasOv : Option Overrides → String → Bool
  | none, _ => false
  | some ov, k => (ov.table.lookup k).isSome

/-- get_override: the literal replacement text for a key. -/
def getOv (ov : Option Overrides) (k : String) : String :=
  match ov with
  | none => ""
  | some o =>
    match o.table.lookup k with
    | some e => e.text
    | none => ""

/-- get_type: the declared type for a key. -/
def getTy (ov : Option Overrides) (k : String) : String :=
  match ov with
  | none => ""
  | some o =>
    match o.table.lookup k with
    | some e => e.otype
    | none => ""

/-- has_override applied to a raw (possibly None) class name. -/
def hasOvN (ov : Option Overrides) : Option String → Bool
  | none => false
  | some k => hasOv ov k

/-- get_override applied to a raw class name. -/
def getOvN (ov : Option Overrides) : Option String → String
  | none => ""
  | some k => getOv ov k

/-- is_enumeration: a class whose name ends in Kind or Sort. -/
def is_enumeration (c : ClassD) : Bool :=
  match c.name with
  | none => false
  | some n => strEndsWith n ("Kind") || strEndsWith n ("Sort")

/-- is_enumeration on an optional class reference (false for None). -/
def isEnumerationOpt (m : Model) : Option Id → Bool
  | none => false
  | some i => is_enumeration (m.classOf i)

/-- is_simple_type: the SimpleAttribute stereotype is applied directly or
inherited through some generalization ancestor; fuel bounds the
generalization recursion (the Python recursion limit). -/
def is_simple_type (m : Model) : Nat → ClassD → Bool
  | 0, _ => false
  | fuel + 1, c =>
    c.appliedStereotypes.any (fun s => s == "SimpleAttribute") ||
      c.generalization.any (fun g => is_simple_type m fuel (m.classOf g))

/-- is_tilde_type: name starts with a tilde. -/
def is_tilde_type (c : ClassD) : Bool :=
  match c.name with
  | none => false
  | some n => strStartsWith n ("~")

/-- is_extension_end: the attribute belongs to a UML Extension. -/
def is_extension_end (m : Model) (a : PropertyD) : Bool :=
  match a.association with
  | none => false
  | some s => (m.assocOf s).isExtension

/-- The inner test of is_in_profile over the package ownership chain
(always called on a real package, so it cannot fail). -/
def inProfileChain (m : Model) : Nat → PackageD → Bool
  | 0, _ => false
  | fuel + 1, p =>
    p.isProfile ||
      match p.owningPackage with
      | none => false
      | some q => inProfileChain m fuel (m.packOf q)

/-- is_in_profile: starts the chain at `c.owningPackage`; when the class
has no owning package Python evaluates `None.owningPackage` and raises
an AttributeError, modelled as the error case. -/
def is_in_profile (m : Model) (fuel : Nat) (c : ClassD) : Except String Bool :=
  match c.owningPackage with
  | none => Except.error ("AttributeError: NoneType object has no attribute owningPackage")
  | some p => Except.ok (inProfileChain m fuel (m.packOf p))

/-- The inner test of is_reassignment: some (transitive) attribute of the
class has the given name. -/
def reassignTest (m : Model) : Nat → Id → Option String → Bool
  | 0, _, _ => false
  | fuel + 1, ci, nm =>
    ((m.classOf ci).ownedAttribute.any (fun aid => (m.propOf aid).name == nm)) ||
      ((bases m (m.classOf ci)).any (fun b => reassignTest m fuel b nm))

/-- is_reassignment: the attribute name already exists on some ancestor. -/
def is_reassignment (m : Model) (fuel : Nat) (a : PropertyD) : Bool :=
  (bases m (m.classOf a.ownerId)).any (fun b => reassignTest m fuel b a.name)

/-- Stable insertion of an element into a key-sorted list (equal keys keep
the incoming element after existing ones, as Python sorted does for an
element that occurred later in the input). -/
def insertByKey {α : Type} (key : α → String) (a : α) : List α → List α
  | [] => [a]
  | b :: bs => if key a ≤ key b then a :: b :: bs else b :: insertByKey key a bs

/-- Stable ascending sort by a string key (the semantics of Python
`sorted(..., key=...)`). -/
def sortByKey {α : Type} (key : α → String) : List α → List α
  | [] => []
  | a :: as => insertByKey key a (sortByKey key as)

/-- Fold a line generator over a list, keeping the lines already produced
when a step fails (the streaming behaviour of a Python generator that
raises mid-iteration). -/
def foldPartial {α : Type} (f : α → List String × Option String) : List α → List String × Option String
  | [] => ([], none)
  | a :: as =>
    match f a with
    | (ls, some e) => (ls, some e)
    | (ls, none) =>
      let r := foldPartial f as
      (ls ++ r.1, r.2)

/-- Fold an all-or-nothing line generator over a list. -/
def foldExcept {α : Type} (f : α → Except String (List String)) : List α → Except String (List String)
  | [] => Except.ok []
  | a :: as =>
    match f a with
    | Except.error e => Except.error e
    | Except.ok ls =>
      match foldExcept f as with
      | Except.error e => Except.error e
      | Except.ok ls2 => Except.ok (ls ++ ls2)

/-- default_value: renders the optional default; int defaults are
title-cased, str defaults quoted, anything else is a fatal error naming
the owner and attribute. -/
def default_value (m : Model) (a : PropertyD) : Except String String :=
  if truthy a.defaultValue then
    if a.typeValue == some ("int") then
      Except.ok (", default=" ++ pyTitle (a.defaultValue.getD ""))
    else if a.typeValue == some ("str") then
      Except.ok (", default=\"" ++ a.defaultValue.getD "" ++ "\"")
    else
      Except.error ("Unknown default value type: " ++ pyStr (m.classOf a.ownerId).name ++ "."
        ++ pyStr a.name ++ ": " ++ pyStr a.typeValue ++ " = " ++ pyStr a.defaultValue)
  else Except.ok ""

/-- lower: omitted when absent or 0. -/
def lower (a : PropertyD) : String :=
  if (a.lowerValue == none) || (a.lowerValue == some ("0")) then ""
  else ", lower=" ++ pyStr a.lowerValue

/-- upper: omitted when absent or unbounded. -/
def upper (a : PropertyD) : String :=
  if (a.upperValue == none) || (a.upperValue == some ("*")) then ""
  else ", upper=" ++ pyStr a.upperValue

/-- composite: emitted exactly when the aggregation kind is composite. -/
def composite (a : PropertyD) : String :=
  if a.aggregation == some ("composite") then ", composite=True" else ""

/-- opposite: the opposite end name is included exactly when the opposite
end exists, has a truthy name, and is anchored to a class. -/
def opposite (m : Model) (a : PropertyD) : String :=
  match a.opposite with
  | none => ""
  | some oid =>
    if truthy (m.propOf oid).name && (m.propOf oid).class_.isSome then
      ", opposite=\"" ++ pyStr (m.propOf oid).name ++ "\""
    else ""

/-- redefines: the value of the first stereotype slot whose defining
feature is named redefines. -/
def redefines (a : PropertyD) : Option String :=
  (a.stereotypeSlots.find? (fun p => p.1 == "redefines")).map Prod.snd

/-- The shared skip guard of the associations and subsets passes:
no type, simple type, enumeration type, or extension end. -/
def skipsAssociation (m : Model) (fuel : Nat) (a : PropertyD) : Bool :=
  (match a.ptype with
   | none => true
   | some t => is_simple_type m fuel (m.classOf t) || is_enumeration (m.classOf t)) ||
    is_extension_end m a

/-- One line of the class body for one attribute (`coder.variables`),
following the exact branch order of the source: extension ends are
skipped before the override check; a derived attribute with no type is
only logged; literal, enumeration and relation shapes follow; anything
else is a fatal error naming owner and attribute. -/
def varLine (m : Model) (fuel : Nat) (ov : Option Overrides) (cname : Option String)
    (a : PropertyD) : Except String (List String) :=
  if is_extension_end m a then Except.ok []
  else
    let full := pyStr cname ++ "." ++ pyStr a.name
    if hasOv ov full then
      Except.ok [pyStr a.name ++ ": " ++ getTy ov full]
    else if a.isDerived && a.ptype.isNone then
      Except.ok []
    else if truthy a.typeValue then
      match default_value m a with
      | Except.error e => Except.error e
      | Except.ok dv =>
        Except.ok [pyStr a.name ++ ": _attribute[" ++ pyStr a.typeValue ++ "] = _attribute(\""
          ++ pyStr a.name ++ "\", " ++ pyStr a.typeValue ++ dv ++ ")"]
    else
      match a.ptype with
      | none =>
        Except.error (pyStr a.name ++ ": None can not be written; owner="
          ++ pyStr (m.classOf a.ownerId).name)
      | some t =>
        if is_enumeration (m.classOf t) then
          match (m.classOf t).ownedAttribute with
          | [] => Except.error ("IndexError: list index out of range")
          | e0 :: _ =>
            let lits := (m.classOf t).ownedAttribute.map
              (fun eid => "\"" ++ pyStr (m.propOf eid).name ++ "\"")
            Except.ok [pyStr a.name ++ " = _enumeration(\"" ++ pyStr a.name ++ "\", ("
              ++ joinSep (", ") lits ++ "), \"" ++ pyStr (m.propOf e0).name ++ "\")"]
        else
          let mult := if a.upper == some ("1") then "one" else "many"
          let comment := if is_reassignment m fuel a then "  # type: ignore[assignment]" else ""
          Except.ok [pyStr a.name ++ ": relation_" ++ mult ++ "[" ++ pyStr (m.classOf t).name
            ++ "]" ++ comment]

/-- The class-body lines for the attributes of one class, iterated in the
name-sorted order of `coder.variables`. -/
def varAttrLines (m : Model) (fuel : Nat) (ov : Option Overrides) (cname : Option String)
    (attrs : List Id) : Except String (List String) :=
  foldExcept (fun aid => varLine m fuel ov cname (m.propOf aid))
    (sortByKey (fun aid => (m.propOf aid).name.getD "") attrs)

/-- The operation annotation lines inside a class body (only overridden
operations contribute). -/
def varOpLines (m : Model) (ov : Option Overrides) (cname : Option String)
    (opsL : List Id) : List String :=
  (sortByKey (fun oid => (m.opOf oid).name.getD "") opsL).filterMap (fun oid =>
    let full := pyStr cname ++ "." ++ pyStr (m.opOf oid).name
    if hasOv ov full then some (pyStr (m.opOf oid).name ++ ": " ++ getTy ov full) else none)

/-- coder.variables for one class: attribute lines then operation lines. -/
def variablesE (m : Model) (fuel : Nat) (ov : Option Overrides) (ci : Id) :
    Except String (List String) :=
  let c := m.classOf ci
  match varAttrLines m fuel ov c.name c.ownedAttribute with
  | Except.error e => Except.error e
  | Except.ok ls1 => Except.ok (ls1 ++ varOpLines m ov c.name c.ownedOperation)

/-- coder.operations: the override text of every overridden operation,
in name-sorted order. -/
def operationsLines (m : Model) (ov : Option Overrides) (ci : Id) : List String :=
  let c := m.classOf ci
  (sortByKey (fun oid => (m.opOf oid).name.getD "") c.ownedOperation).filterMap (fun oid =>
    let full := pyStr c.name ++ "." ++ pyStr (m.opOf oid).name
    if hasOv ov full then some (getOv ov full) else none)

/-- One step of `coder.associations` for one attribute: the immediate
lines and the queued redefinition lines, or the fatal unnamed-attribute
error. -/
def assocStep (m : Model) (fuel : Nat) (ov : Option Overrides) (cname : Option String)
    (aid : Id) : Except String (List String × List String) :=
  let a := m.propOf aid
  let full := pyStr cname ++ "." ++ pyStr a.name
  if hasOv ov full then Except.ok ([getOv ov full], [])
  else if skipsAssociation m fuel a then Except.ok ([], [])
  else
    match a.ptype with
    | none => Except.ok ([], [])
    | some t =>
      match redefines a with
      | some r =>
        Except.ok ([], [full ++ " = redefine(" ++ pyStr cname ++ ", \"" ++ pyStr a.name
          ++ "\", " ++ pyStr (m.classOf t).name ++ ", " ++ r ++ ")"])
      | none =>
        if a.isDerived then
          Except.ok ([full ++ " = derivedunion(\"" ++ pyStr a.name ++ "\", "
            ++ pyStr (m.classOf t).name ++ lower a ++ upper a ++ ")"], [])
        else if !truthy a.name then
          Except.error ("Unnamed attribute: " ++ full)
        else
          Except.ok ([full ++ " = association(\"" ++ pyStr a.name ++ "\", "
            ++ pyStr (m.classOf t).name ++ lower a ++ upper a ++ composite a
            ++ opposite m a ++ ")"], [])

/-- Folds assocStep over the attributes, separating immediate lines from
queued redefinitions and stopping at the first error. -/
def assocFold (m : Model) (fuel : Nat) (ov : Option Overrides) (cname : Option String) :
    List Id → List String × List String × Option String
  | [] => ([], [], none)
  | aid :: rest =>
    match assocStep m fuel ov cname aid with
    | Except.error e => ([], [], some e)
    | Except.ok (ls, rds) =>
      let r := assocFold m fuel ov cname rest
      (ls ++ r.1, rds ++ r.2.1, r.2.2)

/-- coder.associations for one class: attribute lines in stored collection
order, then the queued redefinitions (only when no error occurred). -/
def associationsP (m : Model) (fuel : Nat) (ov : Option Overrides) (ci : Id) :
    List String × Option String :=
  let c := m.classOf ci
  let r := assocFold m fuel ov c.name c.ownedAttribute
  match r.2.2 with
  | some e => (r.1, some e)
  | none => (r.1 ++ r.2.1, none)

/-- Reference to a generated implementation class (its module and name). -/
structure ElementTypeRef where
  modName : String
  clsName : String

/-- A modeling language registry entry: name lookup into the generated
implementation.  Modelled from the spec: the registry itself lives
outside these sources. -/
structure ModelingLanguageD where
  lookupElement : Option String → Option ElementTypeRef

/-- Scans one supermodel factory, in store order, for a class of the given
name that is neither profile-owned nor an enumeration; a found class
missing from the generated model is the fatal assertion of
`in_super_model`, and a class without an owning package propagates the
is_in_profile attribute error. -/
def findInFactory (fuel : Nat) (ml : ModelingLanguageD) (sm : Model) (nm : Option String) :
    List Id → Except String (Option (ElementTypeRef × Id))
  | [] => Except.ok none
  | i :: rest =>
    let cls := sm.classOf i
    if cls.name == nm then
      match is_in_profile sm fuel cls with
      | Except.error e => Except.error e
      | Except.ok inProf =>
        if inProf || is_enumeration cls then findInFactory fuel ml sm nm rest
        else
          match ml.lookupElement cls.name with
          | none => Except.error ("Type " ++ pyStr cls.name
              ++ " found in model, but not in generated model")
          | some et => Except.ok (some (et, i))
    else findInFactory fuel ml sm nm rest

/-- coder.in_super_model: the first supermodel owning a usable class of
the given name. -/
def in_super_model (fuel : Nat) (nm : Option String) :
    List (ModelingLanguageD × Model) → Except String (Option (ElementTypeRef × Model × Id))
  | [] => Except.ok none
  | (ml, sm) :: rest =>
    match findInFactory fuel ml sm nm sm.classIds with
    | Except.error e => Except.error e
    | Except.ok (some (et, i)) => Except.ok (some (et, sm, i))
    | Except.ok none => in_super_model fuel nm rest

/-- Scans the bases for the first base owning the attribute, one recursion
level deeper. -/
def lookupBasesAux (rec : Id → Except String (Option ElementTypeRef × Option (Model × Id))) :
    List Id → Except String (Option (Option ElementTypeRef × (Model × Id)))
  | [] => Except.ok none
  | b :: bs =>
    match rec b with
    | Except.error e => Except.error e
    | Except.ok (et, some d) => Except.ok (some (et, d))
    | Except.ok (_, none) => lookupBasesAux rec bs

/-- coder.attribute: resolves a named attribute on a class, its bases, and
transitively the same-named supermodel class (unless it is the very same
object, compared by factory tag and id). -/
def attributeLookup (sms : List (ModelingLanguageD × Model)) :
    Nat → Model → Id → String → Except String (Option ElementTypeRef × Option (Model × Id))
  | 0, _, _, _ => Except.ok (none, none)
  | fuel + 1, cm, ci, nm =>
    let c := cm.classOf ci
    match c.ownedAttribute.find? (fun aid => (cm.propOf aid).name == some nm) with
    | some aid => Except.ok (none, some (cm, aid))
    | none =>
      match lookupBasesAux (fun b => attributeLookup sms fuel cm b nm) (bases cm c) with
      | Except.error e => Except.error e
      | Except.ok (some (et, d)) => Except.ok (et, some d)
      | Except.ok none =>
        match in_super_model fuel c.name sms with
        | Except.error e => Except.error e
        | Except.ok none => Except.ok (none, none)
        | Except.ok (some (et, sm, si)) =>
          if cm.tag == sm.tag && ci == si then Except.ok (none, none)
          else
            match attributeLookup sms fuel sm si nm with
            | Except.error e => Except.error e
            | Except.ok (_, a) => Except.ok (some et, a)

/-- One comma-separated subsets target: a resolved derived union yields
the import line (when it lives in a supermodel) and the add-registration;
unresolved or non-derived targets are only logged. -/
def subsetValue (m : Model) (fuel : Nat) (sms : List (ModelingLanguageD × Model))
    (ci : Id) (full : String) (value : String) : List String × Option String :=
  match attributeLookup sms fuel m ci (strStrip value) with
  | Except.error e => ([], some e)
  | Except.ok (et, some (dm, did)) =>
    let d := dm.propOf did
    if d.isDerived then
      ((match et with
        | some t => ["from " ++ t.modName ++ " import " ++ pyStr (dm.classOf d.ownerId).name]
        | none => []) ++
        [pyStr (dm.classOf d.ownerId).name ++ "." ++ pyStr d.name ++ ".add(" ++ full
          ++ ")  # type: ignore[attr-defined]"], none)
    else ([], none)
  | Except.ok (_, none) => ([], none)

/-- One stereotype slot of the subsets pass. -/
def subsetSlot (m : Model) (fuel : Nat) (sms : List (ModelingLanguageD × Model))
    (ci : Id) (full : String) (slot : String × String) : List String × Option String :=
  if slot.1 == "subsets" then
    foldPartial (subsetValue m fuel sms ci full) (strSplitComma slot.2)
  else ([], none)

/-- The subsets pass for one attribute. -/
def subsetsAttr (m : Model) (fuel : Nat) (sms : List (ModelingLanguageD × Model))
    (ci : Id) (cname : Option String) (aid : Id) : List String × Option String :=
  let a := m.propOf aid
  if skipsAssociation m fuel a then ([], none)
  else
    let full := pyStr cname ++ "." ++ pyStr a.name
    foldPartial (subsetSlot m fuel sms ci full) a.stereotypeSlots

/-- coder.subsets for one class, in stored attribute order. -/
def subsetsP (m : Model) (fuel : Nat) (sms : List (ModelingLanguageD × Model)) (ci : Id) :
    List String × Option String :=
  foldPartial (subsetsAttr m fuel sms ci (m.classOf ci).name) (m.classOf ci).ownedAttribute

/-- coder.class_declaration: bases sorted by rendered name (a None name
would make the Python sort raise when mixed; rendered names keep the
function total without affecting named models). -/
def class_declaration (m : Model) (ci : Id) : String :=
  let c := m.classOf ci
  let bs := sortByKey (fun b => pyStr (m.classOf b).name) (bases m c)
  "class " ++ pyStr c.name ++ "("
    ++ joinSep (", ") (bs.map (fun b => pyStr (m.classOf b).name)) ++ "):"

/-- The generated file header of coder.py. -/
def headerStr : String :=
  "# This file is generated by coder.py. DO NOT EDIT!\n# isort: skip_file\n# flake8: noqa F401,F811\n# fmt: off\n\nfrom __future__ import annotations\n\nfrom gaphor.core.modeling.properties import (\n    association,\n    attribute as _attribute,\n    derived,\n    derivedunion,\n    enumeration as _enumeration,\n    redefine,\n    relation_many,\n    relation_one,\n)\n"

/-- The declaration block of one class in the first coder loop: class
override text, or a supermodel import (also recorded for dedup), or the
declaration plus body; a mid-body error keeps only the declaration line,
since the Python code materializes the body with list() before yielding
it. -/
def declBlock (m : Model) (fuel : Nat) (ov : Option Overrides)
    (sms : List (ModelingLanguageD × Model)) (ci : Id) :
    List String × List String × Option String :=
  let c := m.classOf ci
  if hasOvN ov c.name then ([getOvN ov c.name], [], none)
  else
    match in_super_model fuel c.name sms with
    | Except.error e => ([], [], some e)
    | Except.ok (some (et, _, _)) =>
      let line := "from " ++ et.modName ++ " import " ++ et.clsName
      ([line], [line], none)
    | Except.ok none =>
      let decl := class_declaration m ci
      match variablesE m fuel ov ci with
      | Except.error e => ([decl], [], some e)
      | Except.ok props =>
        if props.isEmpty then ([decl, "    pass", "", ""], [], none)
        else ([decl] ++ props.map (fun p => "    " ++ p) ++ ["", ""], [], none)

/-- The first coder loop over the ordered classes, threading the
already-imported set. -/
def declLoop (m : Model) (fuel : Nat) (ov : Option Overrides)
    (sms : List (ModelingLanguageD × Model)) :
    List Id → List String → List String × List String × Option String
  | [], already => ([], already, none)
  | ci :: rest, already =>
    match declBlock m fuel ov sms ci with
    | (ls, _, some e) => (ls, already, some e)
    | (ls, adds, none) =>
      let r := declLoop m fuel ov sms rest (already ++ adds)
      (ls ++ r.1, r.2.1, r.2.2)

/-- The dedup filter applied to subsets output: import lines already seen
are dropped, and every import line is recorded. -/
def dedupFrom : List String → List String → List String × List String
  | already, [] => ([], already)
  | already, l :: ls =>
    if strStartsWith l ("from ") then
      let keep : List String := if l ∈ already then [] else [l]
      let r := dedupFrom (l :: already) ls
      (keep ++ r.1, r.2)
    else
      let r := dedupFrom already ls
      (l :: r.1, r.2)

/-- The third coder loop: associations then filtered subsets per class. -/
def assocSubsetLoop (m : Model) (fuel : Nat) (ov : Option Overrides)
    (sms : List (ModelingLanguageD × Model)) :
    List Id → List String → List String × Option String
  | [], _ => ([], none)
  | ci :: rest, already =>
    let ar := associationsP m fuel ov ci
    match ar.2 with
    | some e => (ar.1, some e)
    | none =>
      let sr := subsetsP m fuel sms ci
      let dd := dedupFrom already sr.1
      match sr.2 with
      | some e => (ar.1 ++ dd.1, some e)
      | none =>
        let r := assocSubsetLoop m fuel ov sms rest dd.2
        (ar.1 ++ dd.1 ++ r.1, r.2)

/-- The selection predicate of the coder comprehension, in source order:
enumeration, simple type, profile (which may raise), tilde type. -/
def selectClass (m : Model) (fuel : Nat) (i : Id) : Except String Bool :=
  let c := m.classOf i
  if is_enumeration c then Except.ok false
  else if is_simple_type m fuel c then Except.ok false
  else
    match is_in_profile m fuel c with
    | Except.error e => Except.error e
    | Except.ok true => Except.ok false
    | Except.ok false => Except.ok (!is_tilde_type c)

/-- Filters the stored classes through selectClass. -/
def selectClasses (m : Model) (fuel : Nat) : List Id → Except String (List Id)
  | [] => Except.ok []
  | i :: rest =>
    match selectClass m fuel i with
    | Except.error e => Except.error e
    | Except.ok true =>
      match selectClasses m fuel rest with
      | Except.error e => Except.error e
      | Except.ok l => Except.ok (i :: l)
    | Except.ok false => selectClasses m fuel rest

/-- coder.coder streamed into `main`: the produced line sequence together
with the fatal error aborting it, if any.  `main` prints every yielded
line to the sink as it is produced, so the first component is exactly
what the sink holds when the run ends (normally or fatally). -/
def coderP (m : Model) (sms : List (ModelingLanguageD × Model)) (ov : Option Overrides)
    (fuel : Nat) : List String × Option String :=
  match selectClasses m fuel m.classIds with
  | Except.error e => ([], some e)
  | Except.ok sel =>
    match orderMany m fuel sel [] with
    | none => ([], some ("RecursionError: maximum recursion depth exceeded"))
    | some (classes, _) =>
      let hdr :=
        match ov with
        | some o => if truthy o.headerText then [o.headerText.getD ""] else []
        | none => []
      let d := declLoop m fuel ov sms classes []
      match d.2.2 with
      | some e => (headerStr :: (hdr ++ d.1), some e)
      | none =>
        let opsLs := (classes.map (operationsLines m ov)).flatten
        let ar := assocSubsetLoop m fuel ov sms classes d.2.1
        (headerStr :: (hdr ++ d.1 ++ opsLs ++ [""] ++ ar.1), ar.2)

/-- resolve_attribute_type_values for one property: fold canonical literal
spellings, resolve class-name spellings into composite relations,
downgrade simple-type targets to string literals, and fail on anything
left unresolvable. -/
def resolveProp (m : Model) (fuel : Nat) (p : PropertyD) : Except String PropertyD :=
  let p1 :=
    if (p.typeValue == some ("String")) || (p.typeValue == some ("str"))
        || (p.typeValue == some ("object")) then
      { p with typeValue := some ("str") }
    else if (p.typeValue == some ("Integer")) || (p.typeValue == some ("int"))
        || (p.typeValue == some ("Boolean")) || (p.typeValue == some ("bool"))
        || (p.typeValue == some ("UnlimitedNatural")) then
      { p with typeValue := some ("int") }
    else
      match m.classIds.find? (fun i => (m.classOf i).name == p.typeValue) with
      | some ci => { p with ptype := some ci, typeValue := none, aggregation := some ("composite") }
      | none => p
  let p2 :=
    match p1.ptype with
    | some t =>
      if is_simple_type m fuel (m.classOf t) then
        { p1 with typeValue := some ("str"), ptype := none }
      else p1
    | none => p1
  if p2.ptype.isNone
      && !((p2.typeValue == some ("str")) || (p2.typeValue == some ("int"))
        || (p2.typeValue == none)) then
    Except.error ("Property value type " ++ pyStr p2.typeValue ++ " can not be found")
  else Except.ok p2

/-- resolve_attribute_type_values over the stored properties, in store
order, stopping at the first fatal error. -/
def resolveProps (m : Model) (fuel : Nat) : List Id → Except String (List (Id × PropertyD))
  | [] => Except.ok []
  | i :: rest =>
    match resolveProp m fuel (m.propOf i) with
    | Except.error e => Except.error e
    | Except.ok p =>
      match resolveProps m fuel rest with
      | Except.error e => Except.error e
      | Except.ok l => Except.ok ((i, p) :: l)

/-- Concrete two-class model: class 1 (Derived) has class 0 (Base) as its
sole generalization. -/
def witBase : ClassD := { name := some ("Base") }

/-- The derived class of the witness model. -/
def witDerived : ClassD := { name := some ("Derived"), generalization := [0] }

/-- Witness model with Derived listed before Base in the input order. -/
def witModel : Model :=
  { classIds := [1, 0], classOf := fun i => if i = 1 then witDerived else witBase }

/-- The traversal of the given worklist completes at no recursion depth. -/
def orderDiverges (m : Model) (input : List Id) : Prop :=
  ∀ fuel, orderMany m fuel input [] = none

/-- Cyclic model: classes 0 and 1 generalize each other. -/
def cycA : ClassD := { name := some ("A"), generalization := [1] }

/-- The other member of the generalization cycle. -/
def cycB : ClassD := { name := some ("B"), generalization := [0] }

/-- Model holding the two-class generalization cycle. -/
def cycModel : Model :=
  { classIds := [0, 1], classOf := fun i => if i = 0 then cycA else cycB }

/-- Class A owning a nameless typed attribute (fatal in associations). -/
def m3Class : ClassD := { name := some ("A"), ownedAttribute := [10], owningPackage := some 100 }

/-- The nameless attribute of m3Class, typed by class 0. -/
def m3Prop : PropertyD := { ptype := some 0, ownerId := 0 }

/-- Model whose association pass hits the unnamed-attribute fatal error
after declarations already streamed. -/
def m3 : Model := { classIds := [0], classOf := fun _ => m3Class, propOf := fun _ => m3Prop }

/-- A derived union attribute u of class C. -/
def m4Union : PropertyD := { name := some ("u"), ptype := some 0, isDerived := true, ownerId := 0 }

/-- An overridden attribute a of class C that subsets u. -/
def m4Attr : PropertyD :=
  { name := some ("a"), ptype := some 0, ownerId := 0, stereotypeSlots := [("subsets", "u")] }

/-- Class C owning the derived union and the subsetting attribute. -/
def m4Class : ClassD := { name := some ("C"), ownedAttribute := [20, 21], owningPackage := some 100 }

/-- Model for the override-versus-subsets interaction. -/
def m4 : Model :=
  { classIds := [0], classOf := fun _ => m4Class,
    propOf := fun i => if i = 20 then m4Union else m4Attr }

/-- An override table holding literal text for the key C.a. -/
def ov4 : Overrides :=
  { table := [("C.a",
      { otype := "relation_one[C]", text := "C.a = association(\"a\", C, opposite=\"b\")" })] }

/-- A relation attribute with upper bound literal 1. -/
def c5PropOne : PropertyD := { name := some ("x"), ptype := some 0, upper := some ("1"), ownerId := 5 }

/-- A relation attribute with an unbounded upper bound. -/
def c5PropMany : PropertyD := { name := some ("y"), ptype := some 0, upper := some ("*"), ownerId := 5 }

/-- An enumeration class with two literals. -/
def enumKind : ClassD := { name := some ("ColorKind"), ownedAttribute := [30, 31] }

/-- First enumeration literal. -/
def enumLitRed : PropertyD := { name := some ("red") }

/-- Second enumeration literal. -/
def enumLitGreen : PropertyD := { name := some ("green") }

/-- The class owning the enumeration-typed attribute. -/
def enumOwner : ClassD := { name := some ("C") }

/-- An attribute typed by the enumeration, with no default of its own. -/
def enumAttr : PropertyD := { name := some ("color"), ptype := some 1, ownerId := 0 }

/-- Model exercising the enumeration emission branch. -/
def m6 : Model :=
  { classIds := [0, 1],
    classOf := fun i => if i = 1 then enumKind else enumOwner,
    propOf := fun i => if i = 30 then enumLitRed else if i = 31 then enumLitGreen else enumAttr }

/-- A named opposite end anchored to class 0. -/
def c7Opp : PropertyD := { name := some ("owner"), class_ := some 0 }

/-- An attribute whose opposite end is named and anchored. -/
def c7PropYes : PropertyD := { name := some ("nodes"), opposite := some 51 }

/-- An opposite end whose name is the empty string (falsy in Python). -/
def c7OppUnnamed : PropertyD := { name := some (""), class_ := some 0 }

/-- An attribute whose opposite end is unnamed. -/
def c7PropNo : PropertyD := { name := some ("items"), opposite := some 53 }

/-- Model for the opposite-end emission conditions. -/
def m7 : Model :=
  { propOf := fun i =>
      if i = 51 then c7Opp else if i = 53 then c7OppUnnamed
      else if i = 50 then c7PropYes else c7PropNo }

/-- The literal type spellings recognized by the type normalizer. -/
def canonSpellings : List String :=
  ["String", "str", "object", "Integer", "int", "Boolean", "bool", "UnlimitedNatural"]

/-- An attribute spelled String. -/
def c8PropStr : PropertyD := { name := some ("s"), typeValue := some ("String") }

/-- An attribute with an unresolvable spelling. -/
def c8PropBad : PropertyD := { name := some ("w"), typeValue := some ("Mystery") }

/-- An empty model (no classes to resolve against). -/
def m8 : Model := {}

/-- The association target class T. -/
def c9Target : ClassD := { name := some ("T"), owningPackage := some 100 }

/-- Class C with a configurable stored attribute order. -/
def c9Class (attrs : List Id) : ClassD :=
  { name := some ("C"), ownedAttribute := attrs, owningPackage := some 100 }

/-- Association attribute a typed by T. -/
def c9PropA : PropertyD := { name := some ("a"), ptype := some 3, ownerId := 0 }

/-- Association attribute b typed by T. -/
def c9PropB : PropertyD := { name := some ("b"), ptype := some 3, ownerId := 0 }

/-- A model family differing only in the stored attribute order of C. -/
def m9 (attrs : List Id) : Model :=
  { classIds := [0, 3],
    classOf := fun i => if i = 0 then c9Class attrs else c9Target,
    propOf := fun i => if i = 1 then c9PropA else c9PropB }

/-- A class with no owning package at all. -/
def c10Class : ClassD := { name := some ("Foo") }

/-- Model holding only the package-less class. -/
def m10 : Model := { classIds := [7], classOf := fun _ => c10Class }

theorem orderAux_cons_mem (m : Model) (rec : List Id → List Id → Option (List Id × List Id))
    {c : Id} {cs seen : List Id} (hc : c ∈ seen) :
    orderAux m rec (c :: cs) seen = orderAux m rec cs seen := by
  simp [orderAux, hc]

theorem orderAux_cons_inv (m : Model) (rec : List Id → List Id → Option (List Id × List Id))
    {c : Id} {cs seen o s : List Id}
    (h : orderAux m rec (c :: cs) seen = some (o, s)) (hc : c ∉ seen) :
    ∃ o1 s1 o2 s2, rec (basesOf m c) seen = some (o1, s1) ∧
      orderAux m rec cs (c :: s1) = some (o2, s2) ∧
      o = o1 ++ c :: o2 ∧ s = s2 := by
  rw [orderAux, if_neg hc] at h
  split at h
  · exact absurd h (by simp)
  next o1 s1 h1 =>
    split at h
    · exact absurd h (by simp)
    next o2 s2 h2 =>
      simp only [Option.some.injEq, Prod.mk.injEq] at h
      exact ⟨o1, s1, o2, s2, h1, h2, h.1.symm, h.2.symm⟩

theorem orderAux_seen (m : Model) (rec : List Id → List Id → Option (List Id × List Id))
    (hrec : SeenInv rec) : SeenInv (orderAux m rec) := by
  intro cs
  induction cs with
  | nil =>
    intro seen o s h
    simp only [orderAux, Option.some.injEq, Prod.mk.injEq] at h
    simp [← h.1, ← h.2]
  | cons c cs ih =>
    intro seen o s h
    by_cases hc : c ∈ seen
    · rw [orderAux_cons_mem m rec hc] at h
      exact ih seen o s h
    · obtain ⟨o1, s1, o2, s2, h1, h2, ho, hs⟩ := orderAux_cons_inv m rec h hc
      have e1 := hrec _ _ _ _ h1
      have e2 := ih _ _ _ h2
      subst ho hs e1 e2
      simp [List.reverse_append, List.reverse_cons, List.append_assoc]

theorem orderAux_sub (m : Model) (rec : List Id → List Id → Option (List Id × List Id))
    (hrec : SeenInv rec) : SubInv (orderAux m rec) := by
  have hseen := orderAux_seen m rec hrec
  intro cs
  induction cs with
  | nil => intro seen o s _ c hc; exact absurd hc (List.not_mem_nil c)
  | cons c cs ih =>
    intro seen o s h d hd
    by_cases hc : c ∈ seen
    · rw [orderAux_cons_mem m rec hc] at h
      rcases List.mem_cons.mp hd with hdc | hdcs
      · subst hdc
        have := hseen _ _ _ _ h
        subst this
        exact List.mem_append_right _ hc
      · exact ih seen o s h d hdcs
    · obtain ⟨o1, s1, o2, s2, h1, h2, ho, hs⟩ := orderAux_cons_inv m rec h hc
      subst hs
      rcases List.mem_cons.mp hd with hdc | hdcs
      · subst hdc
        have e2 := hseen _ _ _ _ h2
        subst e2
        exact List.mem_append_right _ (List.mem_cons_self _ _)
      · exact ih _ _ _ h2 d hdcs

theorem orderAux_reach (m : Model) (rec : List Id → List Id → Option (List Id × List Id))
    (hrec : ReachInv m rec) : ReachInv m (orderAux m rec) := by
  intro cs
  induction cs with
  | nil =>
    intro seen o s h x hx
    simp only [orderAux, Option.some.injEq, Prod.mk.injEq] at h
    rw [← h.1] at hx
    exact absurd hx (List.not_mem_nil x)
  | cons c cs ih =>
    intro seen o s h x hx
    by_cases hc : c ∈ seen
    · rw [orderAux_cons_mem m rec hc] at h
      obtain ⟨r, hr, hre⟩ := ih seen o s h x hx
      exact ⟨r, List.mem_cons_of_mem _ hr, hre⟩
    · obtain ⟨o1, s1, o2, s2, h1, h2, ho, _⟩ := orderAux_cons_inv m rec h hc
      subst ho
      rcases List.mem_append.mp hx with hx1 | hx2
      · obtain ⟨r, hr, hre⟩ := hrec _ _ _ _ h1 x hx1
        exact ⟨c, List.mem_cons_self _ _, Relation.ReflTransGen.head hr hre⟩
      · rcases List.mem_cons.mp hx2 with hxc | hxo2
        · subst hxc
          exact ⟨x, List.mem_cons_self _ _, Relation.ReflTransGen.refl⟩
        · obtain ⟨r, hr, hre⟩ := ih _ _ _ h2 x hxo2
          exact ⟨r, List.mem_cons_of_mem _ hr, hre⟩

theorem reaches_rank_le (m : Model) (rank : Id → Nat)
    (hrank : ∀ c b, b ∈ basesOf m c → rank b < rank c)
    {x y : Id} (h : Reaches m x y) : rank y ≤ rank x := by
  induction h with
  | refl => exact le_refl _
  | tail _ hstep ih => exact le_trans (le_of_lt (hrank _ _ hstep)) ih

theorem orderAux_fresh (m : Model) (rank : Id → Nat)
    (hrank : ∀ c b, b ∈ basesOf m c → rank b < rank c)
    (rec : List Id → List Id → Option (List Id × List Id))
    (hseen : SeenInv rec) (hreach : ReachInv m rec) (hrec : FreshInv rec) :
    FreshInv (orderAux m rec) := by
  have hseenA := orderAux_seen m rec hseen
  intro cs
  induction cs with
  | nil =>
    intro seen o s h
    simp only [orderAux, Option.some.injEq, Prod.mk.injEq] at h
    rw [← h.1]
    exact ⟨List.nodup_nil, fun x hx => absurd hx (List.not_mem_nil x)⟩
  | cons c cs ih =>
    intro seen o s h
    by_cases hc : c ∈ seen
    · rw [orderAux_cons_mem m rec hc] at h
      exact ih seen o s h
    · obtain ⟨o1, s1, o2, s2, h1, h2, ho, _⟩ := orderAux_cons_inv m rec h hc
      obtain ⟨hn1, hf1⟩ := hrec _ _ _ _ h1
      obtain ⟨hn2, hf2⟩ := ih _ _ _ h2
      have e1 := hseen _ _ _ _ h1
      subst e1
      -- c was not emitted while ordering its own bases (else a base of c
      -- would reach back to c, contradicting the ranking).
      have hco1 : c ∉ o1 := by
        intro hmem
        obtain ⟨r, hr, hre⟩ := hreach _ _ _ _ h1 c hmem
        have h1lt := hrank c r hr
        have h2le := reaches_rank_le m rank hrank hre
        omega
      have ho2c : ∀ x ∈ o2, x ≠ c ∧ x ∉ o1 ∧ x ∉ seen := by
        intro x hx
        have := hf2 x hx
        simp only [List.mem_cons, List.mem_append, List.mem_reverse, not_or] at this
        exact ⟨this.1, this.2.1, this.2.2⟩
      subst ho
      constructor
      · rw [List.nodup_append]
        refine ⟨hn1, ?_, ?_⟩
        · rw [List.nodup_cons]
          exact ⟨fun hx => (ho2c c hx).1 rfl, hn2⟩
        · intro x hx1 hmem
          rcases List.mem_cons.mp hmem with hxc | hx2
          · exact hco1 (hxc ▸ hx1)
          · exact (ho2c x hx2).2.1 hx1
      · intro x hx
        rcases List.mem_append.mp hx with hx1 | hx2
        · exact hf1 x hx1
        · rcases List.mem_cons.mp hx2 with hxc | hxo2
          · subst hxc; exact hc
          · exact (ho2c x hxo2).2.2

theorem orderAux_topo (m : Model) (rec : List Id → List Id → Option (List Id × List Id))
    (hseen : SeenInv rec) (hsub : SubInv rec) (hrec : TopoInv m rec) :
    TopoInv m (orderAux m rec) := by
  intro cs
  induction cs with
  | nil =>
    intro seen o s h u x v ho
    simp only [orderAux, Option.some.injEq, Prod.mk.injEq] at h
    rw [← h.1] at ho
    exact (List.cons_ne_nil x v (List.append_eq_nil.mp ho.symm).2).elim
  | cons c cs ih =>
    intro seen o s h u x v ho
    by_cases hc : c ∈ seen
    · rw [orderAux_cons_mem m rec hc] at h
      exact ih seen o s h u x v ho
    · obtain ⟨o1, s1, o2, s2, h1, h2, hoeq, _⟩ := orderAux_cons_inv m rec h hc
      have e1 := hseen _ _ _ _ h1
      subst e1 hoeq
      intro b hb
      rcases List.append_eq_append_iff.mp ho with ⟨w, hw1, hw2⟩ | ⟨w, hw1, hw2⟩
      · -- hw1 : u = o1 ++ w, hw2 : c :: o2 = w ++ x :: v
        cases w with
        | nil =>
          simp only [List.append_nil] at hw1
          simp only [List.nil_append, List.cons.injEq] at hw2
          subst hw1
          rcases hw2 with ⟨hcx, _⟩
          subst hcx
          rcases List.mem_append.mp (hsub _ _ _ _ h1 b hb) with hbo | hbseen
          · exact Or.inr (List.mem_reverse.mp hbo)
          · exact Or.inl hbseen
        | cons w0 w' =>
          simp only [List.cons_append, List.cons.injEq] at hw2
          rcases hw2 with ⟨hcw, ho2⟩
          rcases ih _ _ _ h2 w' x v ho2 b hb with hmem | hw'
          · rcases List.mem_cons.mp hmem with hbc | hbs1
            · subst hbc
              refine Or.inr ?_
              rw [hw1, hcw]
              exact List.mem_append_right _ (List.mem_cons_self _ _)
            · rcases List.mem_append.mp hbs1 with hbo | hbseen
              · refine Or.inr ?_
                rw [hw1]
                exact List.mem_append_left _ (List.mem_reverse.mp hbo)
              · exact Or.inl hbseen
          · refine Or.inr ?_
            rw [hw1]
            exact List.mem_append_right _ (List.mem_cons_of_mem _ hw')
      · -- hw1 : o1 = u ++ w, hw2 : x :: v = w ++ c :: o2
        cases w with
        | nil =>
          simp only [List.append_nil] at hw1
          simp only [List.nil_append, List.cons.injEq] at hw2
          rcases hw2 with ⟨hxc, _⟩
          subst hxc
          subst hw1
          rcases List.mem_append.mp (hsub _ _ _ _ h1 b hb) with hbo | hbseen
          · exact Or.inr (List.mem_reverse.mp hbo)
          · exact Or.inl hbseen
        | cons w0 w' =>
          simp only [List.cons_append, List.cons.injEq] at hw2
          rcases hw2 with ⟨hxw, _⟩
          subst hxw
          exact hrec _ _ _ _ h1 u x w' hw1 b hb

theorem orderMany_seen (m : Model) : ∀ fuel, SeenInv (orderMany m fuel)
  | 0 => by intro cs seen o s h; exact absurd h (by simp [orderMany])
  | fuel + 1 => orderAux_seen m _ (orderMany_seen m fuel)

theorem orderMany_sub (m : Model) : ∀ fuel, SubInv (orderMany m fuel)
  | 0 => by intro cs seen o s h; exact absurd h (by simp [orderMany])
  | fuel + 1 => orderAux_sub m _ (orderMany_seen m fuel)

theorem orderMany_reach (m : Model) : ∀ fuel, ReachInv m (orderMany m fuel)
  | 0 => by intro cs seen o s h; exact absurd h (by simp [orderMany])
  | fuel + 1 => orderAux_reach m _ (orderMany_reach m fuel)

theorem orderMany_fresh (m : Model) (rank : Id → Nat)
    (hrank : ∀ c b, b ∈ basesOf m c → rank b < rank c) :
    ∀ fuel, FreshInv (orderMany m fuel)
  | 0 => by intro cs seen o s h; exact absurd h (by simp [orderMany])
  | fuel + 1 =>
    orderAux_fresh m rank hrank _ (orderMany_seen m fuel) (orderMany_reach m fuel)
      (orderMany_fresh m rank hrank fuel)

theorem orderMany_topo (m : Model) : ∀ fuel, TopoInv m (orderMany m fuel)
  | 0 => by intro cs seen o s h; exact absurd h (by simp [orderMany])
  | fuel + 1 =>
    orderAux_topo m _ (orderMany_seen m fuel) (orderMany_sub m fuel) (orderMany_topo m fuel)

theorem orderAux_cons_new (m : Model) (rec : List Id → List Id → Option (List Id × List Id))
    {c : Id} {cs seen o1 s1 o2 s2 : List Id}
    (hc : c ∉ seen) (h1 : rec (basesOf m c) seen = some (o1, s1))
    (h2 : orderAux m rec cs (c :: s1) = some (o2, s2)) :
    orderAux m rec (c :: cs) seen = some (o1 ++ c :: o2, s2) := by
  rw [orderAux, if_neg hc, h1]
  simp only [h2]

theorem orderAux_append_inv (m : Model) (rec : List Id → List Id → Option (List Id × List Id))
    {l1 l2 seen o s : List Id}
    (h : orderAux m rec (l1 ++ l2) seen = some (o, s)) :
    ∃ o1 s1 o2, orderAux m rec l1 seen = some (o1, s1) ∧
      orderAux m rec l2 s1 = some (o2, s) ∧ o = o1 ++ o2 := by
  induction l1 generalizing seen o s with
  | nil => exact ⟨[], seen, o, rfl, by simpa using h, by simp⟩
  | cons c l1 ih =>
    rw [List.cons_append] at h
    by_cases hc : c ∈ seen
    · rw [orderAux_cons_mem m rec hc] at h
      obtain ⟨o1, s1, o2, h1, h2, ho⟩ := ih h
      exact ⟨o1, s1, o2, by rw [orderAux_cons_mem m rec hc]; exact h1, h2, ho⟩
    · obtain ⟨ob, sb, o2', s2', hb, h2', hoeq, hseq⟩ := orderAux_cons_inv m rec h hc
      obtain ⟨oa1, sa1, oa2, ha1, ha2, hoeq2⟩ := ih h2'
      subst hseq
      refine ⟨ob ++ c :: oa1, sa1, oa2, orderAux_cons_new m rec hc hb ha1, ha2, ?_⟩
      rw [hoeq, hoeq2]
      simp [List.append_assoc]

theorem indexOf_append_not_mem {α : Type} [DecidableEq α] {a : α} {u w : List α}
    (h : a ∉ u) : (u ++ w).indexOf a = u.length + w.indexOf a := by
  induction u with
  | nil => simp
  | cons b u ih =>
    have hba : b ≠ a := fun e => h (e ▸ List.mem_cons_self b u)
    have ha : a ∉ u := fun e => h (List.mem_cons_of_mem _ e)
    simp only [List.cons_append, List.indexOf_cons_ne _ hba, ih ha, List.length_cons]
    omega

theorem indexOf_append_mem {α : Type} [DecidableEq α] {a : α} {u : List α} (w : List α)
    (h : a ∈ u) : (u ++ w).indexOf a = u.indexOf a := by
  induction u with
  | nil => exact absurd h (List.not_mem_nil a)
  | cons b u ih =>
    by_cases hba : b = a
    · subst hba; simp [List.indexOf_cons_self]
    · have ha : a ∈ u := by
        rcases List.mem_cons.mp h with h1 | h2
        · exact absurd h1.symm hba
        · exact h2
      simp [List.cons_append, List.indexOf_cons_ne _ hba, ih ha]

theorem transBase_before (m : Model) (out : List Id)
    (htopo : ∀ u x v, out = u ++ x :: v → ∀ b ∈ basesOf m x, b ∈ ([] : List Id) ∨ b ∈ u)
    {a b : Id} (hab : TransBase m a b) :
    ∀ u v, out = u ++ b :: v → a ∈ u := by
  induction hab with
  | single hstep =>
    intro u v hout
    rcases htopo u _ v hout a hstep with h0 | h
    · exact absurd h0 (List.not_mem_nil a)
    · exact h
  | tail _ hstep ih =>
    rename_i M B hT
    intro u v hout
    rcases htopo u _ v hout _ hstep with h0 | hM
    · exact absurd h0 (List.not_mem_nil _)
    · obtain ⟨u1, u2, hu⟩ := List.append_of_mem hM
      have hout2 : out = u1 ++ M :: (u2 ++ B :: v) := by
        rw [hout, hu]
        simp [List.append_assoc]
      have := ih u1 (u2 ++ B :: v) hout2
      rw [hu]
      exact List.mem_append_left _ this

/-- C1: on a graph whose `bases` relation admits a ranking (equivalently,
is acyclic), any completed run of `order_classes` lists every input class
exactly once and without duplicates, places every transitive base strictly
before each class derived from it, and classes that are independent of
everything at or before an earlier input position keep the input order. -/
theorem order_classes_correct (m : Model) (rank : Id → Nat)
    (hrank : ∀ c b, b ∈ basesOf m c → rank b < rank c)
    (fuel : Nat) (input out s : List Id)
    (hrun : orderMany m fuel input [] = some (out, s)) :
    out.Nodup
    ∧ (∀ c ∈ input, out.count c = 1)
    ∧ (∀ a b, b ∈ out → TransBase m a b → a ∈ out ∧ out.indexOf a < out.indexOf b)
    ∧ (∀ pre mid post x y, input = pre ++ x :: mid ++ y :: post →
        (∀ k, k ∈ pre ++ [x] → ¬ Reaches m k y) →
        x ∈ out ∧ y ∈ out ∧ out.indexOf x < out.indexOf y) := by
  have hnodup := (orderMany_fresh m rank hrank fuel _ _ _ _ hrun).1
  have hseen := orderMany_seen m fuel _ _ _ _ hrun
  have hmem : ∀ c ∈ input, c ∈ out := by
    intro c hcin
    have hcs := orderMany_sub m fuel _ _ _ _ hrun c hcin
    rw [hseen] at hcs
    simpa using hcs
  have htopo := orderMany_topo m fuel _ _ _ _ hrun
  refine ⟨hnodup, ?_, ?_, ?_⟩
  · intro c hcin
    exact List.count_eq_one_of_mem hnodup (hmem c hcin)
  · intro A B hB hAB
    obtain ⟨u, v, hu⟩ := List.append_of_mem hB
    have hAu := transBase_before m out htopo hAB u v hu
    have hBnotu : B ∉ u := by
      have hd := hnodup
      rw [hu] at hd
      rcases List.nodup_append.mp hd with ⟨_, _, hdisj⟩
      intro hBu
      exact (hdisj hBu) (List.mem_cons_self _ _)
    constructor
    · rw [hu]; exact List.mem_append_left _ hAu
    · rw [hu, indexOf_append_mem _ hAu, indexOf_append_not_mem hBnotu,
        List.indexOf_cons_self]
      have h1 : u.indexOf A < u.length := List.indexOf_lt_length.mpr hAu
      omega
  · intro pre mid post x y hin hindep
    cases fuel with
    | zero => exact absurd hrun (by simp [orderMany])
    | succ f =>
      have hyout : y ∈ out := hmem y (by rw [hin]; simp)
      have hrun' :
          orderAux m (orderMany m f) ((pre ++ [x]) ++ (mid ++ y :: post)) [] = some (out, s) := by
        have : (pre ++ [x]) ++ (mid ++ y :: post) = pre ++ x :: mid ++ y :: post := by
          simp [List.append_assoc]
        rw [this, ← hin]
        exact hrun
      obtain ⟨oA, sA, oB, hA, hB2, hout⟩ := orderAux_append_inv m _ hrun'
      have hA' : orderMany m (f + 1) (pre ++ [x]) [] = some (oA, sA) := hA
      have hxoA : x ∈ oA := by
        have hxs := orderMany_sub m (f + 1) _ _ _ _ hA' x (by simp)
        have hse := orderMany_seen m (f + 1) _ _ _ _ hA'
        rw [hse] at hxs
        simpa using hxs
      have hynotA : y ∉ oA := by
        intro hmemA
        obtain ⟨r, hr, hre⟩ := orderMany_reach m (f + 1) _ _ _ _ hA' y hmemA
        exact hindep r hr hre
      refine ⟨by rw [hout]; exact List.mem_append_left _ hxoA, hyout, ?_⟩
      rw [hout, indexOf_append_mem _ hxoA, indexOf_append_not_mem hynotA]
      have h1 : oA.indexOf x < oA.length := List.indexOf_lt_length.mpr hxoA
      omega

theorem order_classes_correct_witness :
    (0 : Id) ∈ ([0, 1] : List Id) ∧ ([0, 1] : List Id).indexOf 0 < ([0, 1] : List Id).indexOf 1 := by
  have hrank : ∀ c b, b ∈ basesOf witModel c → (fun i => i) b < (fun i => i) c := by
    intro c b hb
    by_cases hc : c = 1
    · subst hc
      have hb0 : b ∈ ([0] : List Id) := hb
      simp only [List.mem_singleton] at hb0
      simp [hb0]
    · have hz : basesOf witModel c = [] := by
        simp [basesOf, bases, witModel, witBase, hc]
      rw [hz] at hb
      exact absurd hb (List.not_mem_nil b)
  have hrun : orderMany witModel 5 [1, 0] [] = some ([0, 1], [1, 0]) := rfl
  have H := order_classes_correct witModel (fun i => i) hrank 5 [1, 0] [0, 1] [1, 0] hrun
  have h3 := H.2.2.1 0 1 (by simp)
    (Relation.TransGen.single (show (0 : Id) ∈ basesOf witModel 1 by decide))
  exact ⟨h3.1, h3.2⟩

/-- A two-element cycle in the `bases` relation starves the traversal of
any recursion depth: the visited list is extended only after a class has
been fully processed, so both cycle members stay unvisited along the
active recursion and the traversal needs more depth at every fuel. -/
theorem order_two_cycle_none (m : Model) (x y : Id)
    (hx : basesOf m x = [y]) (hy : basesOf m y = [x]) :
    ∀ fuel, (∀ cs seen, x ∉ seen → y ∉ seen → orderMany m fuel (x :: cs) seen = none)
          ∧ (∀ cs seen, x ∉ seen → y ∉ seen → orderMany m fuel (y :: cs) seen = none)
  | 0 => ⟨fun _ _ _ _ => rfl, fun _ _ _ _ => rfl⟩
  | fuel + 1 => by
    constructor
    · intro cs seen hxs hys
      show orderAux m (orderMany m fuel) (x :: cs) seen = none
      rw [orderAux, if_neg hxs, hx,
        (order_two_cycle_none m x y hx hy fuel).2 [] seen hxs hys]
    · intro cs seen hxs hys
      show orderAux m (orderMany m fuel) (y :: cs) seen = none
      rw [orderAux, if_neg hys, hy,
        (order_two_cycle_none m x y hx hy fuel).1 [] seen hxs hys]

/-- C2 counterexample: on a generalization cycle `order_classes` produces
no output at any recursion depth; the only abort is the interpreter
recursion limit, and no structural cycle error is ever raised (the code
has no raising path at all). -/
theorem order_cycle_counterexample : orderDiverges cycModel [0, 1] := by
  intro fuel
  exact (order_two_cycle_none cycModel 0 1 rfl rfl fuel).1 [1] []
    (List.not_mem_nil 0) (List.not_mem_nil 1)

/-- C2 amended: for any model in which two classes list each other as
their only bases, the ordering traversal starves at every recursion
depth; the generator thus aborts only via the recursion-depth limit and
never silently truncates the cycle. -/
theorem order_cycle_no_depth_suffices (m : Model) (x y : Id) (cs : List Id)
    (hx : basesOf m x = [y]) (hy : basesOf m y = [x]) (fuel : Nat) :
    orderMany m fuel (x :: cs) [] = none :=
  (order_two_cycle_none m x y hx hy fuel).1 cs [] (List.not_mem_nil x) (List.not_mem_nil y)

theorem order_cycle_no_depth_suffices_witness :
    orderMany cycModel 50 [0, 1] [] = none :=
  order_cycle_no_depth_suffices cycModel 0 1 [1] rfl rfl 50

/-- C3 counterexample: a run that hits the fatal unnamed-attribute error
has already streamed the header and the class declarations: the sink
holds a nonempty strict prefix, not nothing. -/
theorem coder_partial_output_counterexample :
    (coderP m3 [] none 5).2.isSome = true ∧ (coderP m3 [] none 5).1 ≠ [] := by
  decide

/-- C3 amended: once selection and ordering succeed, the generated header
is already committed to the streaming sink no matter how the rest of the
run ends, so a fatal emission error always leaves partial output behind
(emission fatals do carry the qualified name in their message; the
normalizer fatal happens before the sink is opened but names only the
type value). -/
theorem coder_commits_header (m : Model) (sms : List (ModelingLanguageD × Model))
    (ov : Option Overrides) (fuel : Nat) (sel : List Id) (ord : List Id × List Id)
    (hsel : selectClasses m fuel m.classIds = Except.ok sel)
    (hord : orderMany m fuel sel [] = some ord) :
    ∃ rest, (coderP m sms ov fuel).1 = headerStr :: rest := by
  obtain ⟨ordo, ords⟩ := ord
  simp only [coderP, hsel, hord]
  cases hdd : (declLoop m fuel ov sms ordo []).2.2 with
  | some e => simp only [hdd]; exact ⟨_, rfl⟩
  | none => simp only [hdd]; exact ⟨_, rfl⟩

theorem coder_commits_header_witness :
    ∃ rest, (coderP m3 [] none 5).1 = headerStr :: rest :=
  coder_commits_header m3 [] none 5 [0] ([0], [0]) rfl rfl

/-- C4 counterexample: the subsets pass is not override-aware: for the
overridden key C.a it still computes and emits the derived-union wiring
statement mentioning C.a. -/
theorem override_subsets_counterexample :
    hasOv (some ov4) ("C.a") = true ∧
      (subsetsP m4 5 [] 0).1 = ["C.u.add(C.a)  # type: ignore[attr-defined]"] := by
  exact ⟨rfl, rfl⟩

/-- C4 amended: an override for a member key fully replaces the
association statement (no multiplicity, composite or opposite wiring is
computed) and replaces the class-body slot with a name-and-type
annotation drawn from the override; the subsets pass, however, ignores
overrides. -/
theorem override_precedence (m : Model) (fuel : Nat) (ov : Option Overrides)
    (cname : Option String) (aid : Id)
    (h : hasOv ov (pyStr cname ++ "." ++ pyStr (m.propOf aid).name) = true) :
    assocStep m fuel ov cname aid =
      Except.ok ([getOv ov (pyStr cname ++ "." ++ pyStr (m.propOf aid).name)], [])
    ∧ (is_extension_end m (m.propOf aid) = false →
      varLine m fuel ov cname (m.propOf aid) =
        Except.ok [pyStr (m.propOf aid).name ++ ": "
          ++ getTy ov (pyStr cname ++ "." ++ pyStr (m.propOf aid).name)]) := by
  constructor
  · simp [assocStep, h]
  · intro hext
    simp [varLine, hext, h]

theorem override_precedence_witness :
    assocStep m4 5 (some ov4) (some ("C")) 21 =
      Except.ok (["C.a = association(\"a\", C, opposite=\"b\")"], []) :=
  (override_precedence m4 5 (some ov4) (some ("C")) 21 rfl).1

/-- C5: in the relation branch of the class-body emitter, the declaration
is single-valued exactly when the upper bound literal is the string 1;
every other upper bound, including an absent one, renders multi-valued. -/
theorem multiplicity_rendering (m : Model) (fuel : Nat) (ov : Option Overrides)
    (cname : Option String) (a : PropertyD) (t : Id)
    (hext : is_extension_end m a = false)
    (hov : hasOv ov (pyStr cname ++ "." ++ pyStr a.name) = false)
    (htv : truthy a.typeValue = false)
    (hpt : a.ptype = some t)
    (henum : is_enumeration (m.classOf t) = false) :
    varLine m fuel ov cname a =
      Except.ok [pyStr a.name ++ ": relation_"
        ++ (if a.upper == some ("1") then "one" else "many")
        ++ "[" ++ pyStr (m.classOf t).name ++ "]"
        ++ (if is_reassignment m fuel a then "  # type: ignore[assignment]" else "")]
    ∧ ((if a.upper == some ("1") then "one" else "many") = "one" ↔ a.upper = some ("1")) := by
  constructor
  · simp [varLine, hext, hov, htv, hpt, henum]
  · by_cases hu : (a.upper == some ("1")) = true
    · have heq : a.upper = some ("1") := by simpa using hu
      simp [hu, heq]
    · have hne : ¬ a.upper = some ("1") := by simpa using hu
      simp only [Bool.not_eq_true] at hu
      simp [hu, hne]

theorem multiplicity_rendering_witness :
    varLine witModel 3 none (some ("Base")) c5PropOne = Except.ok ["x: relation_one[Base]"]
    ∧ varLine witModel 3 none (some ("Base")) c5PropMany = Except.ok ["y: relation_many[Base]"] := by
  constructor
  · exact (multiplicity_rendering witModel 3 none (some ("Base")) c5PropOne 0
      rfl rfl rfl rfl rfl).1
  · exact (multiplicity_rendering witModel 3 none (some ("Base")) c5PropMany 0
      rfl rfl rfl rfl rfl).1

/-- C6: in the enumeration branch of the class-body emitter, the emitted
declaration lists every literal name of the enumeration and its default
is the first literal whenever the attribute declares no default of its
own (the branch never consults the attribute default). -/
theorem enumeration_default (m : Model) (fuel : Nat) (ov : Option Overrides)
    (cname : Option String) (a : PropertyD) (t e0 : Id) (es : List Id)
    (hext : is_extension_end m a = false)
    (hov : hasOv ov (pyStr cname ++ "." ++ pyStr a.name) = false)
    (htv : truthy a.typeValue = false)
    (hpt : a.ptype = some t)
    (henum : is_enumeration (m.classOf t) = true)
    (hlits : (m.classOf t).ownedAttribute = e0 :: es)
    (_hnodef : a.defaultValue = none) :
    varLine m fuel ov cname a =
      Except.ok [pyStr a.name ++ " = _enumeration(\"" ++ pyStr a.name ++ "\", ("
        ++ joinSep (", ") ((e0 :: es).map (fun eid => "\"" ++ pyStr (m.propOf eid).name ++ "\""))
        ++ "), \"" ++ pyStr (m.propOf e0).name ++ "\")"] := by
  simp [varLine, hext, hov, htv, hpt, henum, hlits]

theorem enumeration_default_witness :
    varLine m6 3 none (some ("C")) enumAttr =
      Except.ok ["color = _enumeration(\"color\", (\"red\", \"green\"), \"red\")"] :=
  enumeration_default m6 3 none (some ("C")) enumAttr 1 30 [31] rfl rfl rfl rfl rfl rfl rfl

/-- C7: the opposite name of a plain association is included exactly when
the opposite end exists, has a truthy name, and is anchored to a class;
otherwise the opposite fragment is empty. -/
theorem opposite_emission (m : Model) (a : PropertyD) :
    (∀ oid, a.opposite = some oid → truthy (m.propOf oid).name = true →
      (m.propOf oid).class_.isSome = true →
      opposite m a = ", opposite=\"" ++ pyStr (m.propOf oid).name ++ "\""
        ∧ opposite m a ≠ "")
    ∧ ((a.opposite = none
        ∨ ∃ oid, a.opposite = some oid ∧
          (truthy (m.propOf oid).name = false ∨ (m.propOf oid).class_.isSome = false)) →
      opposite m a = "") := by
  constructor
  · intro oid hop hname hcls
    have he : opposite m a = ", opposite=\"" ++ pyStr (m.propOf oid).name ++ "\"" := by
      simp [opposite, hop, hname, hcls]
    refine ⟨he, ?_⟩
    rw [he]
    intro h
    have hl := congrArg String.length h
    simp [String.length_append] at hl
    exact absurd hl.2 (by decide)
  · intro hcase
    rcases hcase with hnone | ⟨oid, hop, hbad⟩
    · simp [opposite, hnone]
    · rcases hbad with hb | hb <;> simp [opposite, hop, hb]

theorem opposite_emission_witness :
    opposite m7 c7PropYes = ", opposite=\"owner\"" ∧ opposite m7 c7PropNo = "" := by
  constructor
  · exact ((opposite_emission m7 c7PropYes).1 51 rfl rfl rfl).1
  · exact (opposite_emission m7 c7PropNo).2 (Or.inr ⟨53, rfl, Or.inl rfl⟩)

/-- C8: the type normalizer folds string spellings to str and integer
spellings to int, resolves class-name spellings into composite relations
(downgraded back to a string literal when the class is a simple type),
and raises a fatal error for any attribute left with neither a canonical
literal kind nor a resolvable class target. -/
theorem resolve_attribute_types (m : Model) (fuel : Nat) (p : PropertyD)
    (hpt : p.ptype = none) :
    ((p.typeValue = some ("String") ∨ p.typeValue = some ("str") ∨ p.typeValue = some ("object")) →
      resolveProp m fuel p = Except.ok { p with typeValue := some ("str") })
    ∧ ((p.typeValue = some ("Integer") ∨ p.typeValue = some ("int") ∨ p.typeValue = some ("Boolean")
        ∨ p.typeValue = some ("bool") ∨ p.typeValue = some ("UnlimitedNatural")) →
      resolveProp m fuel p = Except.ok { p with typeValue := some ("int") })
    ∧ (∀ n ci, p.typeValue = some n → n ∉ canonSpellings →
        m.classIds.find? (fun i => (m.classOf i).name == p.typeValue) = some ci →
        is_simple_type m fuel (m.classOf ci) = false →
        resolveProp m fuel p =
          Except.ok
            { p with ptype := some ci, typeValue := none, aggregation := some ("composite") })
    ∧ (∀ n ci, p.typeValue = some n → n ∉ canonSpellings →
        m.classIds.find? (fun i => (m.classOf i).name == p.typeValue) = some ci →
        is_simple_type m fuel (m.classOf ci) = true →
        resolveProp m fuel p =
          Except.ok
            { p with ptype := none, typeValue := some ("str"), aggregation := some ("composite") })
    ∧ (∀ n, p.typeValue = some n → n ∉ canonSpellings →
        m.classIds.find? (fun i => (m.classOf i).name == p.typeValue) = none →
        resolveProp m fuel p = Except.error ("Property value type " ++ n ++ " can not be found")) := by
  refine ⟨?_, ?_, ?_, ?_, ?_⟩
  · intro hin
    rcases hin with h | h | h <;> simp [resolveProp, h, hpt]
  · intro hin
    rcases hin with h | h | h | h | h <;> simp [resolveProp, h, hpt]
  · intro n ci hn hns hfind hsimple
    simp only [canonSpellings, List.mem_cons, List.not_mem_nil, or_false, not_or] at hns
    obtain ⟨h1, h2, h3, h4, h5, h6, h7, h8⟩ := hns
    simp [resolveProp, hn, h1, h2, h3, h4, h5, h6, h7, h8, hn ▸ hfind, hsimple, hpt]
  · intro n ci hn hns hfind hsimple
    simp only [canonSpellings, List.mem_cons, List.not_mem_nil, or_false, not_or] at hns
    obtain ⟨h1, h2, h3, h4, h5, h6, h7, h8⟩ := hns
    simp [resolveProp, hn, h1, h2, h3, h4, h5, h6, h7, h8, hn ▸ hfind, hsimple, hpt]
  · intro n hn hns hfind
    simp only [canonSpellings, List.mem_cons, List.not_mem_nil, or_false, not_or] at hns
    obtain ⟨h1, h2, h3, h4, h5, h6, h7, h8⟩ := hns
    simp [resolveProp, pyStr, hn, h1, h2, h3, h4, h5, h6, h7, h8, hn ▸ hfind, hpt]

theorem resolve_attribute_types_witness :
    resolveProp m8 3 c8PropStr = Except.ok { c8PropStr with typeValue := some ("str") }
    ∧ resolveProp m8 3 c8PropBad =
      Except.error ("Property value type Mystery can not be found") := by
  constructor
  · exact (resolve_attribute_types m8 3 c8PropStr rfl).1 (Or.inl rfl)
  · exact (resolve_attribute_types m8 3 c8PropBad rfl).2.2.2.2 "Mystery" rfl (by decide) rfl

/-- C9 counterexample: two stores of the very same class graph that differ
only in the stored order of ownedAttribute yield different association
output, so the associations pass follows the stored collection order
rather than a name-sorted total order. -/
theorem association_order_counterexample :
    ((m9 [1, 2]).classOf 0).ownedAttribute.Perm ((m9 [2, 1]).classOf 0).ownedAttribute
    ∧ associationsP (m9 [1, 2]) 5 none 0 ≠ associationsP (m9 [2, 1]) 5 none 0 := by
  constructor
  · decide
  · have h1 : associationsP (m9 [1, 2]) 5 none 0 =
        (["C.a = association(\"a\", T)", "C.b = association(\"b\", T)"], none) := rfl
    have h2 : associationsP (m9 [2, 1]) 5 none 0 =
        (["C.b = association(\"b\", T)", "C.a = association(\"a\", T)"], none) := rfl
    rw [h1, h2]
    decide

theorem insertByKey_perm {α : Type} (key : α → String) (a : α) (l : List α) :
    (insertByKey key a l).Perm (a :: l) := by
  induction l with
  | nil => exact List.Perm.refl _
  | cons b bs ih =>
    rw [insertByKey]
    by_cases h : key a ≤ key b
    · rw [if_pos h]
    · rw [if_neg h]
      exact (ih.cons b).trans (List.Perm.swap a b bs)

theorem sortByKey_perm {α : Type} (key : α → String) (l : List α) :
    (sortByKey key l).Perm l := by
  induction l with
  | nil => exact List.Perm.refl _
  | cons a as ih => exact (insertByKey_perm key a (sortByKey key as)).trans (ih.cons a)

theorem insertByKey_pairwise {α : Type} (key : α → String) (a : α) (l : List α)
    (h : l.Pairwise (fun x y => key x ≤ key y)) :
    (insertByKey key a l).Pairwise (fun x y => key x ≤ key y) := by
  induction l with
  | nil => simp [insertByKey]
  | cons b bs ih =>
    rw [List.pairwise_cons] at h
    rw [insertByKey]
    by_cases hab : key a ≤ key b
    · rw [if_pos hab]
      refine List.Pairwise.cons ?_ (List.Pairwise.cons h.1 h.2)
      intro x hx
      rcases List.mem_cons.mp hx with rfl | hxbs
      · exact hab
      · exact le_trans hab (h.1 x hxbs)
    · rw [if_neg hab]
      refine List.Pairwise.cons ?_ (ih h.2)
      intro x hx
      rcases List.mem_cons.mp ((insertByKey_perm key a bs).mem_iff.mp hx) with rfl | hxbs
      · exact le_of_not_le hab
      · exact h.1 x hxbs

theorem sortByKey_pairwise {α : Type} (key : α → String) (l : List α) :
    (sortByKey key l).Pairwise fun x y => key x ≤ key y := by
  induction l with
  | nil => simp [sortByKey]
  | cons a as ih => exact insertByKey_pairwise key a _ ih

theorem sorted_perm_eq {α : Type} (key : α → String) (l1 : List α) :
    ∀ l2 : List α, l1.Perm l2 →
      l1.Pairwise (fun x y => key x ≤ key y) → l2.Pairwise (fun x y => key x ≤ key y) →
      (∀ a ∈ l1, ∀ b ∈ l1, key a = key b → a = b) → l1 = l2 := by
  induction l1 with
  | nil =>
    intro l2 hp _ _ _
    exact hp.nil_eq
  | cons a as ih =>
    intro l2 hp hs1 hs2 hinj
    cases l2 with
    | nil => exact absurd hp.symm.nil_eq (by simp)
    | cons b bs =>
      have hab : a = b := by
        rcases List.mem_cons.mp (hp.mem_iff.mpr (List.mem_cons_self b bs)) with heq | hbas
        · exact heq.symm
        · rcases List.mem_cons.mp (hp.mem_iff.mp (List.mem_cons_self a as)) with heq2 | habs
          · exact heq2
          · have hk1 : key a ≤ key b := (List.pairwise_cons.mp hs1).1 b hbas
            have hk2 : key b ≤ key a := (List.pairwise_cons.mp hs2).1 a habs
            exact hinj a (List.mem_cons_self a as) b (List.mem_cons_of_mem a hbas)
              (le_antisymm hk1 hk2)
      subst hab
      have htail := hp.cons_inv
      have := ih bs htail (List.pairwise_cons.mp hs1).2 (List.pairwise_cons.mp hs2).2
        (fun x hx y hy hxy =>
          hinj x (List.mem_cons_of_mem a hx) y (List.mem_cons_of_mem a hy) hxy)
      rw [this]

theorem sortByKey_congr_perm {α : Type} (key : α → String) (l1 l2 : List α)
    (hperm : l1.Perm l2)
    (hinj : ∀ a ∈ l1, ∀ b ∈ l1, key a = key b → a = b) :
    sortByKey key l1 = sortByKey key l2 :=
  sorted_perm_eq key _ _
    ((sortByKey_perm key l1).trans (hperm.trans (sortByKey_perm key l2).symm))
    (sortByKey_pairwise key l1) (sortByKey_pairwise key l2)
    (fun a ha b hb hab =>
      hinj a ((sortByKey_perm key l1).mem_iff.mp ha) b ((sortByKey_perm key l1).mem_iff.mp hb) hab)

/-- C9 amended: the generator is a deterministic function of the stored
model, and the class-body pass is even invariant under permutations of
the stored attribute collection (it sorts by name), provided attribute
names are unambiguous; the association and subsets passes, by contrast,
follow the stored collection order (see the counterexample). -/
theorem variables_order_independent (m : Model) (fuel : Nat) (ov : Option Overrides)
    (cname : Option String) (l1 l2 : List Id)
    (hperm : l1.Perm l2)
    (hinj : ∀ a ∈ l1, ∀ b ∈ l1, (m.propOf a).name.getD "" = (m.propOf b).name.getD "" → a = b) :
    varAttrLines m fuel ov cname l1 = varAttrLines m fuel ov cname l2 := by
  unfold varAttrLines
  rw [sortByKey_congr_perm (fun aid => (m.propOf aid).name.getD "") l1 l2 hperm hinj]

theorem variables_order_independent_witness :
    varAttrLines (m9 [1, 2]) 5 none (some ("C")) [1, 2]
      = varAttrLines (m9 [1, 2]) 5 none (some ("C")) [2, 1] := by
  apply variables_order_independent
  · decide
  · decide

/-- C10: is_in_profile dereferences the owning package unconditionally, so
a class without an owning package raises an attribute error instead of
returning false, and class selection propagates that error. -/
theorem is_in_profile_raises (m : Model) (fuel : Nat) (c : ClassD)
    (h : c.owningPackage = none) :
    is_in_profile m fuel c =
      Except.error ("AttributeError: NoneType object has no attribute owningPackage")
    ∧ (∀ i, m.classOf i = c → is_enumeration c = false → is_simple_type m fuel c = false →
      selectClass m fuel i =
        Except.error ("AttributeError: NoneType object has no attribute owningPackage")) := by
  constructor
  · simp [is_in_profile, h]
  · intro i hi he hs
    simp [selectClass, hi, he, hs, is_in_profile, h]

theorem is_in_profile_raises_witness :
    is_in_profile m10 3 c10Class =
      Except.error ("AttributeError: NoneType object has no attribute owningPackage")
    ∧ selectClass m10 3 7 =
      Except.error ("AttributeError: NoneType object has no attribute owningPackage") := by
  have H := is_in_profile_raises m10 3 c10Class rfl
  exact ⟨H.1, H.2 7 rfl rfl rfl⟩

end Coder
